import Mathlib

/-!
Verification of the crypto-crawler core (`src/http_client.py`,
`src/service.py`, `src/core/models.py`) against its specification.

The Python code is shallowly embedded: each coroutine is modelled as a pure
Lean function over an explicit environment (the sequence of HTTP responses,
cycle outcomes, or call instants) that additionally returns the trace of its
observable effects (HTTP attempts, sleeps, storage calls) as a list of
events.  Real numbers of the source (floats) are modelled as exact rationals
`ℚ`; machine integers carry no overflow in Python, so `Nat`/`ℤ` are used
directly.
-/

namespace CryptoCrawler

/-! ### HTTP client: `HttpClient.get` (src/http_client.py, lines 53-116)

The outcome of one HTTP attempt, as seen by the `get` retry loop: either a
response with a status code (payloads are modelled opaquely as `Nat`), or a
network/timeout exception raised by `session.get` (`aiohttp.ClientError` /
`asyncio.TimeoutError`). -/
inductive AttemptOutcome : Type
  | status (code : Nat) (payload : Nat)
  | netError
  deriving DecidableEq, Repr

/-- The terminal errors `HttpClient.get` can raise:
`serverExhausted s` is the `aiohttp.ClientError("Server error after k
attempts: s")` raised at line 80 (it carries the last 5xx status in its
message); `clientError s` is the `aiohttp.ClientResponseError` of line 87
(4xx, re-raised unchanged at line 100); `netExhausted` is the `raise e` of
line 114 after the retry budget is spent on network errors;
`maxRetriesExceeded` is the `aiohttp.ClientError("Max retries exceeded")`
of line 116, reachable only when the attempt loop body never runs. -/
inductive GetError : Type
  | serverExhausted (code : Nat)
  | clientError (code : Nat)
  | netExhausted
  | maxRetriesExceeded
  deriving DecidableEq, Repr

/-- Observable events of one `HttpClient.get` call: an HTTP attempt
(`session.get`), or a backoff sleep of a whole number of time units
(`await asyncio.sleep(delay)` with `delay = 2**attempt`). The rate-limiter
sleep of `_rate_limit`, which precedes the loop, is modelled separately. -/
inductive HEvent : Type
  | attempt
  | sleep (d : Nat)
  deriving DecidableEq, Repr

/-- The body of the `for attempt in range(self.max_retries)` loop of
`HttpClient.get`.  `resp a` is the outcome of attempt number `a` (0-based);
`remaining` is the number of loop iterations left (`max_retries - a`), so
Python's retry condition `attempt < max_retries - 1` is `remaining ≠ 0`
after one iteration is peeled off.  Returns the result together with the
trace of attempts and backoff sleeps, in order. -/
def getLoop (resp : Nat → AttemptOutcome) :
    Nat → Nat → Except GetError Nat × List HEvent
  | 0, _ => (.error .maxRetriesExceeded, [])
  | rem + 1, a =>
    match resp a with
    | .status c p =>
      if 500 ≤ c then
        if rem = 0 then
          (.error (.serverExhausted c), [.attempt])
        else
          let r := getLoop resp rem (a + 1)
          (r.1, .attempt :: .sleep (2 ^ a) :: r.2)
      else if 400 ≤ c then
        (.error (.clientError c), [.attempt])
      else
        (.ok p, [.attempt])
    | .netError =>
      if rem = 0 then
        (.error .netExhausted, [.attempt])
      else
        let r := getLoop resp rem (a + 1)
        (r.1, .attempt :: .sleep (2 ^ a) :: r.2)

/-- `HttpClient.get` with `max_retries = k`: run the attempt loop from
attempt 0 with `k` iterations available. -/
def httpGet (k : Nat) (resp : Nat → AttemptOutcome) :
    Except GetError Nat × List HEvent :=
  getLoop resp k 0

/-- Number of HTTP attempts recorded in a trace. -/
def countAttempts : List HEvent → Nat
  | [] => 0
  | .attempt :: r => countAttempts r + 1
  | .sleep _ :: r => countAttempts r

/-- The backoff sleep durations recorded in a trace, in order. -/
def sleepsOf : List HEvent → List Nat
  | [] => []
  | .attempt :: r => sleepsOf r
  | .sleep d :: r => d :: sleepsOf r

/-! ### Poller: `CryptoCrawlerService.start_price_poller`
(src/service.py, lines 59-119)

One loop cycle either succeeds (fetch, store, moving-average update and the
poll-interval sleep all complete) or fails (any exception inside the `try`
block: fetch, parse or storage error — all are caught by the single
`except Exception` handler). -/
inductive Cycle : Type
  | success
  | failure
  deriving DecidableEq, Repr

/-- Observable events of the poller loop: a fetch attempt (the
`self.coingecko.get_price` call opening a cycle), or a sleep — the
poll-interval sleep of line 93 after a success, or the capped backoff sleep
of line 119 after a non-terminal failure. Durations are rationals
(`poll_interval` is a float; the backoff `min(2**(n-1), 30)` is an int). -/
inductive PEvent : Type
  | fetch
  | psleep (d : ℚ)
  deriving DecidableEq, Repr

/-- The `while self.running` loop of `start_price_poller`, driven by the
list of cycle outcomes the environment produces; the list ending models the
cooperative shutdown flag being cleared (signal handler).  `t` is
`config.max_consecutive_failures`, `ivl` is `config.poll_interval`, and the
`Nat` argument is the current `self.consecutive_failures` (0 at
construction).  Returns the event trace, whether the loop was stopped by
the failure threshold (`self.running = False` and `break` at lines
113-114), and the final `consecutive_failures` counter. -/
def pollerRun (t : Nat) (ivl : ℚ) :
    List Cycle → Nat → List PEvent × Bool × Nat
  | [], c => ([], false, c)
  | .success :: rest, _ =>
    let r := pollerRun t ivl rest 0
    (.fetch :: .psleep ivl :: r.1, r.2)
  | .failure :: rest, c =>
    if t ≤ c + 1 then
      ([.fetch], true, c + 1)
    else
      let r := pollerRun t ivl rest (c + 1)
      (.fetch :: .psleep ((min (2 ^ c) 30 : Nat) : ℚ) :: r.1, r.2)

/-- Number of fetch attempts in a poller trace. -/
def countFetches : List PEvent → Nat
  | [] => 0
  | .fetch :: r => countFetches r + 1
  | .psleep _ :: r => countFetches r

/-- Length of the initial run of consecutive failed cycles. -/
def leadingFailures : List Cycle → Nat
  | .failure :: rest => leadingFailures rest + 1
  | _ => 0

/-! ### Paged crawler: `CryptoCrawlerService.crawl_coinmarketcap_html`
(lines 125-151) and `crawl_coinmarketcap_json` (lines 153-181)

Both methods have the same control structure and differ only in the
provider call and the delay constant (`html_scraping_delay` vs
`json_api_delay`); they are embedded once, parametrised by the per-page
fetch function and the delay.  Records of a page are opaque (`α`). -/
inductive CEvent (α : Type) : Type
  | fetchPage (p : Nat)
  | csleep (d : ℚ)
  | store (batch : List α)
  deriving DecidableEq, Repr

/-- The `for page in range(1, pages + 1)` loop: for each page, attempt the
fetch (`get_listings` / `get_listings_html`); on success extend
`all_listings` with its records and sleep the inter-page delay (the sleep
is inside the `try`, after the extend); on an exception, log and fall
through to the next page.  Returns the accumulated records and the trace
over the given list of page numbers. -/
def crawlLoop {α : Type} (fetch : Nat → Except Unit (List α)) (d : ℚ) :
    List Nat → List α × List (CEvent α)
  | [] => ([], [])
  | p :: rest =>
    let r := crawlLoop fetch d rest
    match fetch p with
    | .ok rs => (rs ++ r.1, .fetchPage p :: .csleep d :: r.2)
    | .error _ => (r.1, .fetchPage p :: r.2)

/-- A whole crawl run over pages `1..n`: run the page loop, then call
`self.storage.store_listings(all_listings)` exactly once (line 147 / 177)
and return `all_listings`. -/
def crawl {α : Type} (fetch : Nat → Except Unit (List α)) (d : ℚ)
    (n : Nat) : List α × List (CEvent α) :=
  let r := crawlLoop fetch d (List.range' 1 n)
  (r.1, r.2 ++ [.store r.1])

/-- The batches passed to `store_listings` in a crawl trace, in order. -/
def storesOf {α : Type} : List (CEvent α) → List (List α)
  | [] => []
  | .store b :: r => b :: storesOf r
  | .fetchPage _ :: r => storesOf r
  | .csleep _ :: r => storesOf r

/-- The pages on which a fetch was attempted, in order. -/
def fetchedPages {α : Type} : List (CEvent α) → List Nat
  | [] => []
  | .fetchPage p :: r => p :: fetchedPages r
  | .csleep _ :: r => fetchedPages r
  | .store _ :: r => fetchedPages r

/-- Number of inter-page delay sleeps in a crawl trace. -/
def countCrawlSleeps {α : Type} : List (CEvent α) → Nat
  | [] => 0
  | .csleep _ :: r => countCrawlSleeps r + 1
  | .fetchPage _ :: r => countCrawlSleeps r
  | .store _ :: r => countCrawlSleeps r

/-- The records a page contributes to the run: its records when its fetch
succeeds, nothing when it fails. -/
def pageRecords {α : Type} (fetch : Nat → Except Unit (List α))
    (p : Nat) : List α :=
  match fetch p with
  | .ok rs => rs
  | .error _ => []

/-! ### Rate limiter: `HttpClient._rate_limit` and `min_interval`
(src/http_client.py, lines 29-51)

Time is explicit: a call happens at instant `now`; sleeps are assumed exact
and the code between the two `datetime.now()` reads instantaneous, so the
instant recorded into `self.last_request_time` is `now + sleep`. -/

/-- `self.min_interval = 1.0 / requests_per_second if requests_per_second
> 0 else 0` (line 30-32). -/
def minIntervalOf (rps : ℚ) : ℚ :=
  if 0 < rps then 1 / rps else 0

/-- One `_rate_limit()` call: given the recorded last-request instant (or
`none` on the first call) and the current instant, return the sleep
duration (0 when it does not wait) and the newly recorded last-request
instant. -/
def rateLimit (d : ℚ) : Option ℚ → ℚ → ℚ × ℚ
  | none, now => (0, now)
  | some t, now =>
    if 0 < d ∧ now - t < d then
      (d - (now - t), now + (d - (now - t)))
    else
      (0, now)

/-- A sequence of `get` calls through one client: each list element is the
instant at which the next call reaches `_rate_limit()`.  Returns the list
of recorded request instants. -/
def rateLimitRun (d : ℚ) : Option ℚ → List ℚ → List ℚ
  | _, [] => []
  | last, now :: rest =>
    let r := rateLimit d last now
    r.2 :: rateLimitRun d (some r.2) rest

/-- Physical plausibility of a sequence of call instants: each call occurs
no earlier than the instant recorded by the previous call (real time only
advances between calls of one client). -/
def callTimesOk (d : ℚ) : Option ℚ → List ℚ → Bool
  | _, [] => true
  | none, now :: rest => callTimesOk d (some (rateLimit d none now).2) rest
  | some t, now :: rest =>
    decide (t ≤ now) && callTimesOk d (some (rateLimit d (some t) now).2) rest

/-! ### Moving average: `MovingAverage` (src/core/models.py, lines 48-72)

Sample values are exact rationals (the source uses Python floats; the
claims are about which values the window holds, not about rounding).
Reads (`get_average`, `is_ready`) are embedded state-passing, returning
the result together with the post-call state, so that their freedom from
mutation is part of the model. -/
structure MovingAverage : Type where
  window_size : Nat
  values : List ℚ
  deriving DecidableEq, Repr

/-- Dataclass construction `MovingAverage(window_size=w, values=vs)`
followed by `__post_init__`, which executes `self.values = []` regardless
of the `values` argument (line 55-56). -/
def MovingAverage.make (w : Nat) (vs : List ℚ) : MovingAverage :=
  let constructed : MovingAverage := ⟨w, vs⟩
  { constructed with values := [] }

/-- `add_value`: append, then `if len(self.values) > self.window_size:
self.values.pop(0)` — a single conditional removal of the head. -/
def MovingAverage.add_value (m : MovingAverage) (v : ℚ) : MovingAverage :=
  let appended := m.values ++ [v]
  if m.window_size < appended.length then
    ⟨m.window_size, appended.tail⟩
  else
    ⟨m.window_size, appended⟩

/-- Add a sequence of values in order. -/
def MovingAverage.addAll (m : MovingAverage) (vs : List ℚ) : MovingAverage :=
  vs.foldl MovingAverage.add_value m

/-- `get_average`: `None` if `self.values` is empty, else
`sum(self.values) / len(self.values)`; reads only `self.values`, so the
state comes back unchanged. -/
def MovingAverage.get_average (m : MovingAverage) :
    Option ℚ × MovingAverage :=
  (if m.values = [] then none else some (m.values.sum / m.values.length), m)

/-- `is_ready`: `len(self.values) >= self.window_size`; reads only, state
unchanged. -/
def MovingAverage.is_ready (m : MovingAverage) : Bool × MovingAverage :=
  (m.window_size ≤ m.values.length, m)

/-- Specification-side arithmetic mean of a list of values, "no value"
when the list is empty. -/
def meanOpt (vs : List ℚ) : Option ℚ :=
  if vs = [] then none else some (vs.sum / vs.length)

/-- Whether the fetch of page `p` succeeds. -/
def okPage {α : Type} (fetch : Nat → Except Unit (List α)) (p : Nat) :
    Bool :=
  match fetch p with
  | .ok _ => true
  | .error _ => false

/-! ## Helper lemmas -/

theorem countAttempts_append (x y : List HEvent) :
    countAttempts (x ++ y) = countAttempts x + countAttempts y := by
  induction x with
  | nil => simp [countAttempts]
  | cons e r ih =>
    cases e with
    | attempt =>
      simp only [List.cons_append, List.append_eq, countAttempts, ih]
      omega
    | sleep d =>
      simp only [List.cons_append, List.append_eq, countAttempts, ih]

theorem sleepsOf_append (x y : List HEvent) :
    sleepsOf (x ++ y) = sleepsOf x ++ sleepsOf y := by
  induction x with
  | nil => simp [sleepsOf]
  | cons e r ih => cases e <;> simp [sleepsOf, ih]

/-- Trace shape of the retry loop when every attempt is a server error:
the loop from attempt `a` with `rem ≥ 1` iterations left makes `rem`
attempts separated by sleeps `2^a, …, 2^(a+rem-2)` and ends in the
exhausted-retries error carrying the status of the last attempt. -/
theorem getLoop_all_server (s q : Nat → Nat) (hs : ∀ a, 500 ≤ s a) :
    ∀ rem a, 1 ≤ rem →
      getLoop (fun i => .status (s i) (q i)) rem a
        = (.error (.serverExhausted (s (a + rem - 1))),
           ((List.range' a (rem - 1)).flatMap
              fun i => [.attempt, .sleep (2 ^ i)]) ++ [.attempt]) := by
  intro rem
  induction rem with
  | zero => omega
  | succ m ih =>
    intro a _
    rcases Nat.eq_zero_or_pos m with hm | hm
    · subst hm
      simp [getLoop, hs a]
    · have hm0 : m ≠ 0 := Nat.pos_iff_ne_zero.mp hm
      have step := ih (a + 1) hm
      simp only [getLoop, hs a, if_pos (le_refl _), if_neg hm0, step]
      have hr : m + 1 - 1 = (m - 1) + 1 := by omega
      have ha : a + 1 + m - 1 = a + (m + 1) - 1 := by omega
      simp [hr, List.range'_succ, ha, hs]

theorem countAttempts_blocks (L : List Nat) :
    countAttempts (L.flatMap fun i => [HEvent.attempt, .sleep (2 ^ i)])
      = L.length := by
  induction L with
  | nil => simp [countAttempts]
  | cons i r ih =>
    rw [List.flatMap_cons, countAttempts_append, ih]
    simp [countAttempts]
    omega

theorem sleepsOf_blocks (L : List Nat) :
    sleepsOf (L.flatMap fun i => [HEvent.attempt, .sleep (2 ^ i)])
      = L.map fun i => 2 ^ i := by
  induction L with
  | nil => simp [sleepsOf]
  | cons i r ih =>
    rw [List.flatMap_cons, sleepsOf_append, ih]
    simp [sleepsOf]

/-- **C1.** With `max_retries = k` and every attempt answered by an HTTP
status ≥ 500, `HttpClient.get` performs exactly `k` attempts, with backoff
sleeps `1, 2, 4, …, 2^(k-2)` between consecutive attempts (for `k ≥ 1`),
and fails with the exhausted-retries error carrying the last attempt's
status; with `max_retries = 0` the attempt loop never runs and the call
fails with the exhausted-retries error after zero attempts. -/
theorem C1_retry_exhaustion (k : Nat) (s q : Nat → Nat)
    (hs : ∀ a, 500 ≤ s a) :
    (1 ≤ k →
      (httpGet k fun a => .status (s a) (q a)).1
          = .error (.serverExhausted (s (k - 1)))
        ∧ countAttempts (httpGet k fun a => .status (s a) (q a)).2 = k
        ∧ sleepsOf (httpGet k fun a => .status (s a) (q a)).2
            = (List.range (k - 1)).map fun i => 2 ^ i)
    ∧ (k = 0 →
        httpGet k (fun a => .status (s a) (q a))
          = (.error .maxRetriesExceeded, [])) := by
  constructor
  · intro hk
    have h := getLoop_all_server s q hs k 0 hk
    unfold httpGet
    rw [h]
    refine ⟨by simp, ?_, ?_⟩
    · rw [countAttempts_append, countAttempts_blocks]
      simp [countAttempts]
      omega
    · rw [sleepsOf_append, sleepsOf_blocks]
      simp [sleepsOf, List.range_eq_range']
  · intro hk
    subst hk
    rfl

/-- Witness for C1 at `k = 3` with every attempt returning 503. -/
theorem C1_retry_exhaustion_witness :
    (httpGet 3 fun _ => .status 503 0).1
        = .error (.serverExhausted 503)
      ∧ countAttempts (httpGet 3 fun _ => .status 503 0).2 = 3
      ∧ sleepsOf (httpGet 3 fun _ => .status 503 0).2 = [1, 2] := by
  have h := (C1_retry_exhaustion 3 (fun _ => 503) (fun _ => 0)
      (fun _ => by norm_num)).1 (by norm_num)
  exact ⟨h.1, h.2.1, by rw [h.2.2]; rfl⟩

theorem countFetches_append (x y : List PEvent) :
    countFetches (x ++ y) = countFetches x + countFetches y := by
  induction x with
  | nil => simp [countFetches]
  | cons e r ih =>
    cases e with
    | fetch =>
      simp only [List.cons_append, List.append_eq, countFetches, ih]
      omega
    | psleep d =>
      simp only [List.cons_append, List.append_eq, countFetches, ih]

/-- If the poller loop stops by the failure threshold starting from a
counter strictly below it, the final counter is exactly the threshold. -/
theorem pollerRun_stop_counter (t : Nat) (ivl : ℚ) :
    ∀ (l : List Cycle) (c : Nat), c < t →
      (pollerRun t ivl l c).2.1 = true → (pollerRun t ivl l c).2.2 = t := by
  intro l
  induction l with
  | nil => intro c _ h; simp [pollerRun] at h
  | cons o rest ih =>
    intro c hc h
    cases o with
    | success =>
      simp only [pollerRun] at h ⊢
      exact ih 0 (by omega) h
    | failure =>
      by_cases ht : t ≤ c + 1
      · simp only [pollerRun, if_pos ht] at h ⊢
        omega
      · simp only [pollerRun, if_neg ht] at h ⊢
        exact ih (c + 1) (by omega) h

/-- Starting from a counter strictly below the threshold, the poller loop
is stopped by the threshold exactly when the leading failures close the
gap to the threshold or some suffix of the outcome sequence begins with
`t` consecutive failures. -/
theorem pollerRun_stop_iff (t : Nat) (ivl : ℚ) :
    ∀ (l : List Cycle) (c : Nat), c < t →
      ((pollerRun t ivl l c).2.1 = true
        ↔ t ≤ c + leadingFailures l
          ∨ ∃ s, s <:+ l ∧ t ≤ leadingFailures s) := by
  intro l
  induction l with
  | nil =>
    intro c hc
    simp only [pollerRun, leadingFailures]
    constructor
    · intro h; simp at h
    · rintro (h | ⟨s, hs, hle⟩)
      · omega
      · rw [List.suffix_nil.mp hs] at hle
        simp [leadingFailures] at hle
        omega
  | cons o rest ih =>
    intro c hc
    cases o with
    | success =>
      simp only [pollerRun]
      rw [ih 0 (by omega)]
      constructor
      · rintro (h | ⟨s, hs, hle⟩)
        · exact Or.inr ⟨rest, ⟨List.suffix_cons_iff.mpr
            (Or.inr (List.suffix_refl rest)), by omega⟩⟩
        · exact Or.inr ⟨s, hs.trans (List.suffix_cons _ _), hle⟩
      · rintro (h | ⟨s, hs, hle⟩)
        · simp [leadingFailures] at h
          omega
        · rcases List.suffix_cons_iff.mp hs with hs | hs
          · rw [hs] at hle
            simp [leadingFailures] at hle
            omega
          · exact Or.inr ⟨s, hs, hle⟩
    | failure =>
      by_cases ht : t ≤ c + 1
      · simp only [pollerRun, if_pos ht, leadingFailures]
        constructor
        · intro _
          exact Or.inl (by omega)
        · intro _
          trivial
      · simp only [pollerRun, if_neg ht, leadingFailures]
        rw [ih (c + 1) (by omega)]
        constructor
        · rintro (h | ⟨s, hs, hle⟩)
          · exact Or.inl (by omega)
          · exact Or.inr ⟨s, hs.trans (List.suffix_cons _ _), hle⟩
        · rintro (h | ⟨s, hs, hle⟩)
          · exact Or.inl (by omega)
          · rcases List.suffix_cons_iff.mp hs with hs | hs
            · rw [hs] at hle
              simp only [leadingFailures] at hle
              exact Or.inl (by omega)
            · exact Or.inr ⟨s, hs, hle⟩

/-- A block of consecutive failures that closes the gap to the threshold
stops the loop at the end of the block: the loop makes exactly one fetch
per failure of the block and none for the outcomes after it, and the
final counter equals the threshold. -/
theorem pollerRun_replicate (t : Nat) (ivl : ℚ) :
    ∀ (n c : Nat) (rest : List Cycle), c + n = t → 1 ≤ n →
      (pollerRun t ivl (List.replicate n .failure ++ rest) c).2.1 = true
        ∧ countFetches
            (pollerRun t ivl (List.replicate n .failure ++ rest) c).1 = n
        ∧ (pollerRun t ivl (List.replicate n .failure ++ rest) c).2.2
            = t := by
  intro n
  induction n with
  | zero => omega
  | succ m ih =>
    intro c rest hct hm
    rcases Nat.eq_zero_or_pos m with h0 | hpos
    · subst h0
      have ht : t ≤ c + 1 := by omega
      simp [pollerRun, ht, countFetches]
      omega
    · have ht : ¬ t ≤ c + 1 := by omega
      have step := ih (c + 1) rest (by omega) hpos
      rw [List.replicate_succ]
      simp only [List.cons_append, List.append_eq, pollerRun, if_neg ht]
      refine ⟨step.1, ?_, step.2.2⟩
      simp only [countFetches, step.2.1]

/-- Splitting a poller run at a point where the loop has not stopped: the
first part's trace is a prefix and its final counter seeds the rest. -/
theorem pollerRun_append (t : Nat) (ivl : ℚ) :
    ∀ (l m : List Cycle) (c : Nat), (pollerRun t ivl l c).2.1 = false →
      pollerRun t ivl (l ++ m) c
        = ((pollerRun t ivl l c).1
             ++ (pollerRun t ivl m ((pollerRun t ivl l c).2.2)).1,
           (pollerRun t ivl m ((pollerRun t ivl l c).2.2)).2) := by
  intro l
  induction l with
  | nil => intro m c _; simp [pollerRun]
  | cons o rest ih =>
    intro m c h
    cases o with
    | success =>
      simp only [pollerRun, List.cons_append, List.append_eq] at h ⊢
      rw [ih m 0 h]
    | failure =>
      by_cases ht : t ≤ c + 1
      · simp [pollerRun, ht] at h
      · simp only [pollerRun, List.cons_append, List.append_eq,
          if_neg ht] at h ⊢
        rw [ih m (c + 1) h]

theorem storesOf_append {α : Type} (x y : List (CEvent α)) :
    storesOf (x ++ y) = storesOf x ++ storesOf y := by
  induction x with
  | nil => simp [storesOf]
  | cons e r ih =>
    cases e <;>
      simp only [List.cons_append, List.append_eq, storesOf, ih]

theorem fetchedPages_append {α : Type} (x y : List (CEvent α)) :
    fetchedPages (x ++ y) = fetchedPages x ++ fetchedPages y := by
  induction x with
  | nil => simp [fetchedPages]
  | cons e r ih =>
    cases e <;>
      simp only [List.cons_append, List.append_eq, fetchedPages, ih]

theorem countCrawlSleeps_append {α : Type} (x y : List (CEvent α)) :
    countCrawlSleeps (x ++ y)
      = countCrawlSleeps x + countCrawlSleeps y := by
  induction x with
  | nil => simp [countCrawlSleeps]
  | cons e r ih =>
    cases e with
    | fetchPage p =>
      simp only [List.cons_append, List.append_eq, countCrawlSleeps, ih]
    | csleep d =>
      simp only [List.cons_append, List.append_eq, countCrawlSleeps, ih]
      omega
    | store b =>
      simp only [List.cons_append, List.append_eq, countCrawlSleeps, ih]

/-- Closed form of the crawl page loop: the accumulator is the
concatenation, in page order, of the successful pages' records, and the
trace is one block per page — fetch then delay for a successful page,
fetch alone for a failed one. -/
theorem crawlLoop_spec {α : Type} (fetch : Nat → Except Unit (List α))
    (d : ℚ) :
    ∀ ps : List Nat,
      crawlLoop fetch d ps
        = (ps.flatMap (pageRecords fetch),
           ps.flatMap fun p =>
             match fetch p with
             | .ok _ => [CEvent.fetchPage p, .csleep d]
             | .error _ => [CEvent.fetchPage p]) := by
  intro ps
  induction ps with
  | nil => simp [crawlLoop]
  | cons p rest ih =>
    cases hfp : fetch p with
    | ok rs =>
      rw [List.flatMap_cons, List.flatMap_cons]
      simp [crawlLoop, hfp, ih, pageRecords]
    | error e =>
      rw [List.flatMap_cons, List.flatMap_cons]
      simp [crawlLoop, hfp, ih, pageRecords]

theorem storesOf_blocks {α : Type} (fetch : Nat → Except Unit (List α))
    (d : ℚ) (ps : List Nat) :
    storesOf (ps.flatMap fun p =>
        match fetch p with
        | .ok _ => [CEvent.fetchPage p, .csleep d]
        | .error _ => [CEvent.fetchPage p]) = ([] : List (List α)) := by
  induction ps with
  | nil => simp [storesOf]
  | cons p rest ih =>
    rw [List.flatMap_cons, storesOf_append, ih]
    cases hfp : fetch p <;> simp [storesOf]

theorem fetchedPages_blocks {α : Type}
    (fetch : Nat → Except Unit (List α)) (d : ℚ) (ps : List Nat) :
    fetchedPages ((ps.flatMap fun p =>
        match fetch p with
        | .ok _ => [CEvent.fetchPage p, .csleep d]
        | .error _ => [CEvent.fetchPage p]) : List (CEvent α)) = ps := by
  induction ps with
  | nil => simp [fetchedPages]
  | cons p rest ih =>
    rw [List.flatMap_cons, fetchedPages_append, ih]
    cases hfp : fetch p <;> simp [fetchedPages]

theorem countCrawlSleeps_blocks {α : Type}
    (fetch : Nat → Except Unit (List α)) (d : ℚ) (ps : List Nat) :
    countCrawlSleeps ((ps.flatMap fun p =>
        match fetch p with
        | .ok _ => [CEvent.fetchPage p, .csleep d]
        | .error _ => [CEvent.fetchPage p]) : List (CEvent α))
      = ps.countP (okPage fetch) := by
  induction ps with
  | nil => simp [countCrawlSleeps]
  | cons p rest ih =>
    rw [List.flatMap_cons, countCrawlSleeps_append, ih,
      List.countP_cons]
    cases hfp : fetch p with
    | ok rs =>
      simp [countCrawlSleeps, okPage, hfp]
      omega
    | error e =>
      simp [countCrawlSleeps, okPage, hfp]

/-- When every page of a list fails, the successful-page records of the
list concatenate to nothing. -/
theorem flatMap_pageRecords_nil {α : Type}
    (fetch : Nat → Except Unit (List α)) :
    ∀ ps : List Nat, (∀ p ∈ ps, fetch p = .error ())
      → ps.flatMap (pageRecords fetch) = [] := by
  intro ps
  induction ps with
  | nil => simp
  | cons p rest ih =>
    intro hall
    rw [List.flatMap_cons, ih fun x hx => hall x (List.mem_cons_of_mem _ hx)]
    simp [pageRecords, hall p (List.mem_cons_self _ _)]

/-- **C3.** In every paged-crawl run over pages `1..n` (in either HTML or
JSON mode — the two methods share this control structure), every page is
attempted in order regardless of earlier failures, the returned list is
the concatenation in page order of exactly the successful pages' records,
`store_listings` is called exactly once with that combined batch, and the
batch is empty when every page failed. -/
theorem C3_page_level_fault_tolerance {α : Type}
    (fetch : Nat → Except Unit (List α)) (d : ℚ) (n : Nat) :
    (crawl fetch d n).1 = (List.range' 1 n).flatMap (pageRecords fetch)
  ∧ fetchedPages (crawl fetch d n).2 = List.range' 1 n
  ∧ storesOf (crawl fetch d n).2 = [(crawl fetch d n).1]
  ∧ ((∀ p ∈ List.range' 1 n, fetch p = .error ())
        → (crawl fetch d n).1 = []) := by
  have hloop := crawlLoop_spec fetch d (List.range' 1 n)
  have hacc : (crawl fetch d n).1
      = (List.range' 1 n).flatMap (pageRecords fetch) := by
    unfold crawl
    rw [hloop]
  refine ⟨hacc, ?_, ?_, ?_⟩
  · unfold crawl
    rw [hloop]
    simp only [fetchedPages_append, fetchedPages_blocks]
    simp [fetchedPages]
  · unfold crawl
    rw [hloop]
    simp only [storesOf_append, storesOf_blocks]
    simp [storesOf]
  · intro hall
    rw [hacc]
    exact flatMap_pageRecords_nil fetch (List.range' 1 n) hall

/-- Witness for C3: two pages that both fail produce an empty batch,
stored once. -/
theorem C3_page_level_fault_tolerance_witness :
    (crawl (fun _ => (Except.error () : Except Unit (List Nat))) 1 2).1
        = []
      ∧ fetchedPages
          (crawl (fun _ => (Except.error () : Except Unit (List Nat)))
            1 2).2 = [1, 2]
      ∧ storesOf
          (crawl (fun _ => (Except.error () : Except Unit (List Nat)))
            1 2).2 = [[]] := by
  have h := C3_page_level_fault_tolerance
    (fun _ => (Except.error () : Except Unit (List Nat))) 1 2
  have he := h.2.2.2 (fun p _ => rfl)
  refine ⟨he, by rw [h.2.1]; rfl, by rw [h.2.2.1, he]⟩

/-- **C9 (amended).** In every paged-crawl run the inter-page delay
suspension occurs immediately after each page whose fetch succeeds —
including the last page of the run — and does not occur after a page
whose fetch fails; the number of delay suspensions equals the number of
successful pages. (The claim as stated — delay between consecutive pages
and never after the last — fails on the code: the sleep is inside the
per-page `try`, after the extend, so it runs after every successful page,
the last included, and is skipped when the page's fetch raises.) -/
theorem C9_delay_follows_successful_pages {α : Type}
    (fetch : Nat → Except Unit (List α)) (d : ℚ) (n : Nat) :
    (crawl fetch d n).2
        = ((List.range' 1 n).flatMap fun p =>
            match fetch p with
            | .ok _ => [CEvent.fetchPage p, .csleep d]
            | .error _ => [CEvent.fetchPage p])
          ++ [CEvent.store (crawl fetch d n).1]
      ∧ countCrawlSleeps (crawl fetch d n).2
          = (List.range' 1 n).countP (okPage fetch) := by
  have hloop := crawlLoop_spec fetch d (List.range' 1 n)
  constructor
  · show (crawl fetch d n).2 = _
    unfold crawl
    rw [hloop]
  · unfold crawl
    rw [hloop]
    simp only [countCrawlSleeps_append, countCrawlSleeps_blocks]
    simp [countCrawlSleeps]

/-- **C9 counterexample.** A one-page run whose single page succeeds
contains one delay suspension, placed after the last (and only) page —
the claim as stated implies a single-page run suspends no delay at all. -/
theorem C9_counterexample :
    (crawl (fun _ => Except.ok ([0] : List Nat)) 1 1).2
        = [CEvent.fetchPage 1, CEvent.csleep 1, CEvent.store [0]]
      ∧ countCrawlSleeps
          (crawl (fun _ => Except.ok ([0] : List Nat)) 1 1).2 = 1 :=
  ⟨rfl, rfl⟩

/-- **C2 (amended: threshold ≥ 1).** For every threshold `t ≥ 1`: any
successful cycle resets the consecutive-failure counter to 0 and any
failed cycle increments it by 1; the loop is stopped by the threshold
exactly when some block of `t` consecutive failed cycles occurs, the
counter at that stop being exactly `t`; a block of `t` consecutive
failures causes exactly `t` fetch attempts and none afterwards.  In
particular failures that are interrupted by successes — every block
strictly shorter than `t` — never stop the loop, however many there are
in total. -/
theorem C2_consecutive_failure_threshold (t : Nat) (ht : 1 ≤ t) (ivl : ℚ) :
    (∀ l : List Cycle,
        (pollerRun t ivl l 0).2.1 = true
          ↔ ∃ s, s <:+ l ∧ t ≤ leadingFailures s)
  ∧ (∀ l : List Cycle, (pollerRun t ivl l 0).2.1 = true
        → (pollerRun t ivl l 0).2.2 = t)
  ∧ (∀ rest : List Cycle,
        (pollerRun t ivl (List.replicate t .failure ++ rest) 0).2.1 = true
          ∧ countFetches
              (pollerRun t ivl
                (List.replicate t .failure ++ rest) 0).1 = t)
  ∧ (∀ l : List Cycle, (pollerRun t ivl l 0).2.1 = false
        → (pollerRun t ivl (l ++ [.success]) 0).2.2 = 0
          ∧ (pollerRun t ivl (l ++ [.failure]) 0).2.2
              = (pollerRun t ivl l 0).2.2 + 1) := by
  refine ⟨?_, ?_, ?_, ?_⟩
  · intro l
    rw [pollerRun_stop_iff t ivl l 0 (by omega)]
    constructor
    · rintro (h | hex)
      · exact ⟨l, List.suffix_refl l, by omega⟩
      · exact hex
    · exact fun hex => Or.inr hex
  · intro l
    exact pollerRun_stop_counter t ivl l 0 (by omega)
  · intro rest
    have h := pollerRun_replicate t ivl t 0 rest (by omega) ht
    exact ⟨h.1, h.2.1⟩
  · intro l h
    rw [pollerRun_append t ivl l [.success] 0 h,
      pollerRun_append t ivl l [.failure] 0 h]
    constructor
    · simp [pollerRun]
    · by_cases hc : t ≤ (pollerRun t ivl l 0).2.2 + 1 <;>
        simp [pollerRun, hc]

/-- Witness for C2 at `t = 2`: two consecutive failures stop the loop with
exactly two fetch attempts, and the success queued after them is never
fetched. -/
theorem C2_consecutive_failure_threshold_witness :
    (pollerRun 2 1 (List.replicate 2 .failure ++ [Cycle.success]) 0).2.1
        = true
      ∧ countFetches
          (pollerRun 2 1
            (List.replicate 2 .failure ++ [Cycle.success]) 0).1 = 2 :=
  (C2_consecutive_failure_threshold 2 (by norm_num) 1).2.2.1 [Cycle.success]

/-- **C2 counterexample.** The claim quantifies over every threshold, but
at `t = 0` the loop does not stop "when the counter reaches `t`": with the
counter already at the threshold (0) the poller still performs a fetch,
and when it does stop — after the first failed cycle — the counter is 1,
not 0. -/
theorem C2_counterexample :
    (pollerRun 0 1 [Cycle.failure] 0).2.1 = true
      ∧ countFetches (pollerRun 0 1 [Cycle.failure] 0).1 = 1
      ∧ (pollerRun 0 1 [Cycle.failure] 0).2.2 ≠ 0 :=
  ⟨rfl, rfl, by simp [pollerRun]⟩

/-- **C5.** If the first HTTP attempt returns a status in `[400, 500)`,
`HttpClient.get` fails at once with the client-error exception carrying
that status: the trace is a single attempt with no backoff sleep, however
large the remaining retry budget `k` is. -/
theorem C5_client_error_no_retry (k c q : Nat)
    (resp : Nat → AttemptOutcome) (h0 : resp 0 = .status c q)
    (h4 : 400 ≤ c) (h5 : c < 500) (hk : 1 ≤ k) :
    httpGet k resp = (.error (.clientError c), [.attempt])
      ∧ countAttempts (httpGet k resp).2 = 1
      ∧ sleepsOf (httpGet k resp).2 = [] := by
  obtain ⟨m, rfl⟩ : ∃ m, k = m + 1 := ⟨k - 1, by omega⟩
  have h : httpGet (m + 1) resp = (.error (.clientError c), [.attempt]) := by
    unfold httpGet getLoop
    rw [h0]
    have : ¬ 500 ≤ c := by omega
    simp [this, h4]
  exact ⟨h, by rw [h]; rfl, by rw [h]; rfl⟩

/-- **C7.** The two backoff computations are distinct policies: the
fetcher's per-attempt retry backoff is uncapped exponential — the sleep
after failed attempt `a` is exactly `2^a`, exceeding 30 as soon as the
budget allows attempt index 5 — while the poller's per-cycle failure
backoff after the `c+1`-st consecutive non-terminal failure is exactly
`min(2^c, 30)`, which the 30-unit cap bounds always. -/
theorem C7_backoff_distinct (k : Nat) (hk : 1 ≤ k) (s q : Nat → Nat)
    (hs : ∀ a, 500 ≤ s a) (t : Nat) (ivl : ℚ) (c : Nat)
    (rest : List Cycle) (hc : c + 1 < t) :
    sleepsOf (httpGet k fun a => .status (s a) (q a)).2
        = (List.range (k - 1)).map (fun i => 2 ^ i)
      ∧ (7 ≤ k →
          ∃ x ∈ sleepsOf (httpGet k fun a => .status (s a) (q a)).2,
            30 < x)
      ∧ (pollerRun t ivl (.failure :: rest) c).1
          = .fetch :: .psleep ((min (2 ^ c) 30 : Nat) : ℚ)
              :: (pollerRun t ivl rest (c + 1)).1
      ∧ (∀ n : Nat, min (2 ^ n) 30 ≤ 30)
      ∧ (∀ n : Nat, 5 ≤ n → min (2 ^ n) 30 = 30) := by
  have hsl : sleepsOf (httpGet k fun a => .status (s a) (q a)).2
      = (List.range (k - 1)).map (fun i => 2 ^ i) := by
    have h := getLoop_all_server s q hs k 0 hk
    unfold httpGet
    rw [h, sleepsOf_append, sleepsOf_blocks]
    simp [sleepsOf, List.range_eq_range']
  refine ⟨hsl, ?_, ?_, ?_, ?_⟩
  · intro hk7
    refine ⟨2 ^ 5, ?_, by norm_num⟩
    rw [hsl]
    exact List.mem_map.mpr ⟨5, List.mem_range.mpr (by omega), rfl⟩
  · have ht : ¬ t ≤ c + 1 := by omega
    simp [pollerRun, ht]
  · intro n
    exact min_le_right _ _
  · intro n hn
    refine min_eq_right ?_
    calc (30 : Nat) ≤ 2 ^ 5 := by norm_num
    _ ≤ 2 ^ n := Nat.pow_le_pow_right (by norm_num) hn

/-- Witness for C7: a budget of 7 attempts produces the uncapped sleeps
`1, 2, 4, 8, 16, 32` (the last exceeding 30), while the poller's backoff
after a seventh consecutive failure sleeps the capped 30. -/
theorem C7_backoff_distinct_witness :
    sleepsOf (httpGet 7 fun _ => .status 503 0).2 = [1, 2, 4, 8, 16, 32]
      ∧ (∃ x ∈ sleepsOf (httpGet 7 fun _ => .status 503 0).2, 30 < x)
      ∧ (pollerRun 9 1 [Cycle.failure] 6).1
          = [PEvent.fetch, PEvent.psleep 30] := by
  have h := C7_backoff_distinct 7 (by norm_num) (fun _ => 503)
    (fun _ => 0) (fun _ => by norm_num) 9 1 6 [] (by norm_num)
  refine ⟨by rw [h.1]; rfl, h.2.1 (by norm_num), ?_⟩
  rw [h.2.2.1]
  norm_num [pollerRun]

/-- Witness for C5: a 404 on the first attempt with a budget of 5 retries. -/
theorem C5_client_error_no_retry_witness :
    httpGet 5 (fun _ => .status 404 7)
        = (.error (.clientError 404), [.attempt])
      ∧ countAttempts (httpGet 5 fun _ => .status 404 7).2 = 1
      ∧ sleepsOf (httpGet 5 fun _ => .status 404 7).2 = [] :=
  C5_client_error_no_retry 5 404 7 (fun _ => .status 404 7) rfl
    (by norm_num) (by norm_num) (by norm_num)

theorem minIntervalOf_nonneg (rps : ℚ) : 0 ≤ minIntervalOf rps := by
  by_cases h : 0 < rps
  · simp only [minIntervalOf, if_pos h]
    positivity
  · simp [minIntervalOf, h]

/-- One rate-limited call spaces its recorded instant at least the
minimum interval after the previously recorded one. -/
theorem rateLimit_spacing (d : ℚ) (hd : 0 ≤ d) (t now : ℚ)
    (h : t ≤ now) : t + d ≤ (rateLimit d (some t) now).2 := by
  by_cases hc : 0 < d ∧ now - t < d
  · have : (rateLimit d (some t) now).2 = now + (d - (now - t)) := by
      simp [rateLimit, hc]
    rw [this]
    linarith
  · have : (rateLimit d (some t) now).2 = now := by
      simp only [rateLimit, if_neg hc]
    rw [this]
    push_neg at hc
    by_cases hd0 : 0 < d
    · have := hc hd0
      linarith
    · have : d = 0 := le_antisymm (not_lt.mp hd0) hd
      linarith

/-- Spacing of the whole recorded sequence, seeded by a previously
recorded instant. -/
theorem rateLimitRun_chain_some (d : ℚ) (hd : 0 ≤ d) :
    ∀ (ts : List ℚ) (t : ℚ), callTimesOk d (some t) ts = true →
      List.Chain' (fun x y => x + d ≤ y)
        (t :: rateLimitRun d (some t) ts) := by
  intro ts
  induction ts with
  | nil =>
    intro t _
    simp [rateLimitRun]
  | cons now rest ih =>
    intro t hok
    simp only [callTimesOk, Bool.and_eq_true, decide_eq_true_eq] at hok
    simp only [rateLimitRun]
    rw [List.chain'_cons]
    exact ⟨rateLimit_spacing d hd t now hok.1, ih _ hok.2⟩

theorem rateLimitRun_chain (d : ℚ) (hd : 0 ≤ d) :
    ∀ ts : List ℚ, callTimesOk d none ts = true →
      List.Chain' (fun x y => x + d ≤ y) (rateLimitRun d none ts) := by
  intro ts h
  cases ts with
  | nil => simp [rateLimitRun]
  | cons now rest =>
    have hfirst : rateLimit d none now = (0, now) := rfl
    simp only [callTimesOk, hfirst] at h
    simp only [rateLimitRun, hfirst]
    exact rateLimitRun_chain_some d hd rest now h

/-- **C6.** With `min_interval` derived as `1 / requests_per_second`
(0 when `requests_per_second ≤ 0`): each `_rate_limit` call suspends for
exactly the remaining delta when the elapsed time since the recorded
last-request instant is below the interval (and the interval is positive),
suspends not at all otherwise, and always records the current instant —
the call instant plus whatever it waited — as the new last-request
instant; the first call of a client never waits, and over any physically
plausible call sequence any two consecutive recorded instants differ by
at least the interval. -/
theorem C6_rate_limiter (rps : ℚ) :
    ((0 < rps → minIntervalOf rps = 1 / rps)
      ∧ (rps ≤ 0 → minIntervalOf rps = 0))
  ∧ (∀ t now : ℚ, 0 < minIntervalOf rps
        → now - t < minIntervalOf rps
        → (rateLimit (minIntervalOf rps) (some t) now).1
            = minIntervalOf rps - (now - t))
  ∧ (∀ t now : ℚ,
        ¬(0 < minIntervalOf rps ∧ now - t < minIntervalOf rps)
        → (rateLimit (minIntervalOf rps) (some t) now).1 = 0)
  ∧ (∀ (last : Option ℚ) (now : ℚ),
        (rateLimit (minIntervalOf rps) last now).2
          = now + (rateLimit (minIntervalOf rps) last now).1)
  ∧ (∀ now : ℚ, (rateLimit (minIntervalOf rps) none now).1 = 0)
  ∧ (∀ ts : List ℚ, callTimesOk (minIntervalOf rps) none ts = true
        → List.Chain' (fun x y => x + minIntervalOf rps ≤ y)
            (rateLimitRun (minIntervalOf rps) none ts)) := by
  refine ⟨⟨?_, ?_⟩, ?_, ?_, ?_, ?_, ?_⟩
  · intro h
    simp [minIntervalOf, h]
  · intro h
    simp [minIntervalOf, not_lt.mpr h]
  · intro t now h1 h2
    simp [rateLimit, h1, h2]
  · intro t now hc
    simp only [rateLimit, if_neg hc]
  · intro last now
    cases last with
    | none => simp [rateLimit]
    | some t =>
      by_cases hc : 0 < minIntervalOf rps
          ∧ now - t < minIntervalOf rps
      · simp [rateLimit, hc]
      · simp [rateLimit, hc]
  · intro now
    rfl
  · exact rateLimitRun_chain (minIntervalOf rps) (minIntervalOf_nonneg rps)

/-- Witness for C6 at `requests_per_second = 1` (interval 1) over call
instants `0, 1/2, 3`: the recorded instants are spaced at least 1 apart. -/
theorem C6_rate_limiter_witness :
    callTimesOk (minIntervalOf 1) none [0, 1/2, 3] = true
      ∧ List.Chain' (fun x y => x + minIntervalOf 1 ≤ y)
          (rateLimitRun (minIntervalOf 1) none [0, 1/2, 3]) := by
  have hok : callTimesOk (minIntervalOf 1) none [0, 1/2, 3] = true := by
    norm_num [callTimesOk, rateLimit, minIntervalOf]
  exact ⟨hok, (C6_rate_limiter 1).2.2.2.2.2 [0, 1/2, 3] hok⟩

/-! Moving-average lemmas. -/

/-- Adding values that keep the total within the window capacity never
evicts: the held list is the old list with the new values appended. -/
theorem addAll_no_evict (n : Nat) :
    ∀ (vs pre : List ℚ), (pre ++ vs).length ≤ n →
      MovingAverage.addAll ⟨n, pre⟩ vs = ⟨n, pre ++ vs⟩ := by
  intro vs
  induction vs with
  | nil =>
    intro pre h
    simp [MovingAverage.addAll]
  | cons v rest ih =>
    intro pre h
    have hl : pre.length + (rest.length + 1) ≤ n := by simpa using h
    have hstep : MovingAverage.add_value ⟨n, pre⟩ v = ⟨n, pre ++ [v]⟩ := by
      have hno : ¬ n < pre.length + 1 := by omega
      simp [MovingAverage.add_value, hno]
    show MovingAverage.addAll ⟨n, pre⟩ (v :: rest) = _
    unfold MovingAverage.addAll
    rw [List.foldl_cons]
    have hrest := ih (pre ++ [v]) (by simp; omega)
    unfold MovingAverage.addAll at hrest
    rw [hstep, hrest]
    simp

/-- Adding `n + 1` values into an empty window of capacity `n` evicts
exactly the oldest one. -/
theorem addAll_evict_one (n : Nat) (ws : List ℚ)
    (hw : ws.length = n + 1) :
    MovingAverage.addAll ⟨n, []⟩ ws = ⟨n, ws.tail⟩ := by
  have hne : ws ≠ [] := by
    intro h
    rw [h] at hw
    simp at hw
  have hsplit := List.dropLast_append_getLast hne
  have hdrop : ws.dropLast.length = n := by
    rw [List.length_dropLast, hw]
    omega
  calc MovingAverage.addAll ⟨n, []⟩ ws
      = MovingAverage.addAll ⟨n, []⟩
          (ws.dropLast ++ [ws.getLast hne]) := by rw [hsplit]
    _ = MovingAverage.add_value
          (MovingAverage.addAll ⟨n, []⟩ ws.dropLast)
          (ws.getLast hne) := by
        unfold MovingAverage.addAll
        rw [List.foldl_append]
        rfl
    _ = MovingAverage.add_value ⟨n, ws.dropLast⟩ (ws.getLast hne) := by
        rw [addAll_no_evict n ws.dropLast [] (by simp [hdrop])]
        rfl
    _ = ⟨n, ws.tail⟩ := by
        have hcond : n < (ws.dropLast ++ [ws.getLast hne]).length := by
          rw [List.length_append, hdrop]
          simp
        have hstep : MovingAverage.add_value ⟨n, ws.dropLast⟩
              (ws.getLast hne)
            = ⟨n, (ws.dropLast ++ [ws.getLast hne]).tail⟩ := by
          simp only [MovingAverage.add_value]
          rw [if_pos hcond]
        rw [hstep, hsplit]

/-- **C4.** For a `MovingAverage` with window size `n`: adding `m ≤ n`
values yields an average equal to their mean (defined — non-`None` — as
soon as one value was added, before the window fills); adding `n + 1`
values evicts the oldest, so the average is the mean of the last `n` and
`is_ready` holds; `get_average` is `None` exactly on an empty window, and
`is_ready` is true exactly when the held count reaches the window size. -/
theorem C4_moving_average_window (n : Nat) :
    (∀ vs : List ℚ, vs.length ≤ n →
        ((MovingAverage.make n []).addAll vs).get_average.1 = meanOpt vs
      ∧ (vs ≠ [] →
          ((MovingAverage.make n []).addAll vs).get_average.1 ≠ none))
  ∧ (∀ ws : List ℚ, ws.length = n + 1 →
        ((MovingAverage.make n []).addAll ws).get_average.1
            = meanOpt ws.tail
      ∧ ((MovingAverage.make n []).addAll ws).is_ready.1 = true)
  ∧ (∀ m : MovingAverage, m.get_average.1 = none ↔ m.values = [])
  ∧ (∀ m : MovingAverage,
        m.is_ready.1 = true ↔ m.window_size ≤ m.values.length) := by
  have hmk : MovingAverage.make n [] = ⟨n, []⟩ := rfl
  refine ⟨?_, ?_, ?_, ?_⟩
  · intro vs hlen
    rw [hmk, addAll_no_evict n vs [] (by simpa using hlen)]
    constructor
    · simp [MovingAverage.get_average, meanOpt]
    · intro hne
      simp [MovingAverage.get_average, hne]
  · intro ws hw
    rw [hmk, addAll_evict_one n ws hw]
    have htl : ws.tail.length = n := by
      rw [List.length_tail, hw]
      omega
    constructor
    · simp [MovingAverage.get_average, meanOpt]
    · simp [MovingAverage.is_ready, htl]
  · intro m
    by_cases h : m.values = [] <;> simp [MovingAverage.get_average, h]
  · intro m
    simp [MovingAverage.is_ready]

/-- Witness for C4 with window 3: the mean is reported for two values
(window not yet full), and a fourth value evicts the first. -/
theorem C4_moving_average_window_witness :
    ((MovingAverage.make 3 []).addAll [1, 2]).get_average.1
        = meanOpt [1, 2]
      ∧ ((MovingAverage.make 3 []).addAll [1, 2]).get_average.1 ≠ none
      ∧ ((MovingAverage.make 3 []).addAll [1, 2, 3, 4]).get_average.1
          = meanOpt [2, 3, 4]
      ∧ ((MovingAverage.make 3 []).addAll [1, 2, 3, 4]).is_ready.1
          = true := by
  have h := C4_moving_average_window 3
  have h1 := h.1 [1, 2] (by norm_num)
  have h2 := h.2.1 [1, 2, 3, 4] (by norm_num)
  exact ⟨h1.1, h1.2 (by simp), by rw [h2.1]; rfl, h2.2⟩

/-- **C8.** For every window size `n`, the invariant
`len(values) ≤ window_size` holds after construction and is preserved by
every `add_value` call (which also leaves the window size itself
untouched); `get_average` and `is_ready` return the state unchanged. -/
theorem C8_length_invariant (n : Nat) :
    (∀ vs : List ℚ, (MovingAverage.make n vs).values.length ≤ n)
  ∧ (∀ (m : MovingAverage) (v : ℚ),
        m.values.length ≤ m.window_size
          → (m.add_value v).values.length ≤ m.window_size
            ∧ (m.add_value v).window_size = m.window_size)
  ∧ (∀ m : MovingAverage, m.get_average.2 = m)
  ∧ (∀ m : MovingAverage, m.is_ready.2 = m) := by
  refine ⟨?_, ?_, fun m => rfl, fun m => rfl⟩
  · intro vs
    simp [MovingAverage.make]
  · intro m v hinv
    by_cases h : m.window_size < m.values.length + 1
    · have hstep : m.add_value v
          = ⟨m.window_size, (m.values ++ [v]).tail⟩ := by
        simp [MovingAverage.add_value, h]
      rw [hstep]
      refine ⟨?_, rfl⟩
      simp
      omega
    · have hstep : m.add_value v
          = ⟨m.window_size, m.values ++ [v]⟩ := by
        simp [MovingAverage.add_value, h]
      rw [hstep]
      refine ⟨?_, rfl⟩
      simp
      omega

/-- Witness for C8: adding to a full window of capacity 2 keeps the
length at 2. -/
theorem C8_length_invariant_witness :
    ((⟨2, [1, 2]⟩ : MovingAverage).add_value 5).values.length ≤ 2 :=
  ((C8_length_invariant 2).2.1 ⟨2, [1, 2]⟩ 5 (by simp)).1

/-- **C10.** The `MovingAverage` constructor discards the `values`
argument: `__post_init__` resets the list to empty, so immediately after
construction no values are held, `get_average` is `None`, `is_ready` is
false for positive window sizes, and two constructions with the same
window size are equal whatever values were passed. -/
theorem C10_post_init_discards (w : Nat) (vs : List ℚ) :
    (MovingAverage.make w vs).values = []
  ∧ (MovingAverage.make w vs).get_average.1 = none
  ∧ (0 < w → (MovingAverage.make w vs).is_ready.1 = false)
  ∧ ∀ vs2 : List ℚ, MovingAverage.make w vs = MovingAverage.make w vs2 := by
  refine ⟨rfl, rfl, ?_, fun _ => rfl⟩
  intro hw
  simp [MovingAverage.make, MovingAverage.is_ready]
  omega

/-- Witness for C10: a window of size 2 constructed with a non-empty
values list still starts empty and not ready. -/
theorem C10_post_init_discards_witness :
    (MovingAverage.make 2 [7]).values = []
      ∧ (MovingAverage.make 2 [7]).get_average.1 = none
      ∧ (MovingAverage.make 2 [7]).is_ready.1 = false :=
  ⟨(C10_post_init_discards 2 [7]).1,
   (C10_post_init_discards 2 [7]).2.1,
   (C10_post_init_discards 2 [7]).2.2.1 (by norm_num)⟩

end CryptoCrawler
